import Mathlib

/-!
Shallow embedding of the gemini-3h-slash settlement tool.

Source files: `src/main.rs` (record assembler, epoch resolver, settlement
engine) and `src/types.rs` (data model, `SharePrice`,
`StorageFundRedeemPrice`).

`Balance` is the `u128` of the chain; it is embedded as `Nat` with explicit
`% 2 ^ 128` where the Rust code can wrap, `checked_add` returning `none` on
overflow (a `.unwrap()` panic in the source is `none` here), and saturating
operations clamping explicitly.  The fixed-point ratio type `Perbill` comes
from the `sp_arithmetic` crate; its operations used by this repository are
embedded below following the parts-per-billion semantics of that crate
(`from_rational` rounds down and clamps to one when the numerator exceeds the
denominator or the denominator is zero; `mul_floor` is overflow-pruned floor
multiplication; `saturating_reciprocal_mul_floor` divides by the parts and
therefore panics — `none` here — when the parts are zero).

The asynchronous storage fetches of the binary (`get_operator_epoch_share_price`)
are abstracted as an explicit lookup function argument, and the `BTreeMap`s are
embedded as association lists / lookup functions; nothing else is simplified.
-/

namespace GeminiSlash

/-- `Balance = u128`: embedded as `Nat`, with the u128 range made explicit. -/
abbrev Balance := Nat

/-- Nominator account identifier (`AccountId32` on chain); only decidable
equality and a total order are used by the tool, so `Nat` suffices. -/
abbrev AccountId := Nat

/-- `2 ^ 128`, the modulus of the `u128` `Balance` type. -/
def U128_MOD : Nat := 2 ^ 128

/-- `u128::MAX`, the saturation bound of the `u128` `Balance` type. -/
def U128_MAX : Nat := U128_MOD - 1

/-- `u128::checked_add`: `none` exactly when the mathematical sum leaves the
u128 range (the source calls `.unwrap()` on it, i.e. panics). -/
def checked_add (a b : Balance) : Option Balance :=
  if a + b < U128_MOD then some (a + b) else none

/-- `u128::saturating_sub`; on `Nat` truncated subtraction is already
saturating. -/
def saturating_sub (a b : Balance) : Balance := a - b

/-- Plain `+` on `u128` as compiled in release mode: wraps modulo `2 ^ 128`. -/
def wrapping_add (a b : Balance) : Balance := (a + b) % U128_MOD

/-- `Perbill::ACCURACY = 10 ^ 9` (parts per billion). -/
def ACCURACY : Nat := 1000000000

/-- `sp_arithmetic::Perbill`: a fixed-point fraction stored as parts per
billion (`u32` in the crate; the constructors used here never exceed
`ACCURACY`). -/
structure Perbill where
  parts : Nat
deriving DecidableEq

/-- `Perbill::one()`.  The `is_one` accessor of the crate compares the stored
parts with `ACCURACY`; it is inlined as that comparison below. -/
def Perbill.one : Perbill := ⟨ACCURACY⟩

/-- `Perbill::from_rational(p, q)` (rounding down): clamps to one when
`q = 0` or `p > q`, otherwise `floor(p * ACCURACY / q)`. -/
def Perbill.from_rational (p q : Nat) : Perbill :=
  if q = 0 ∨ q < p then Perbill.one else ⟨p * ACCURACY / q⟩

/-- `Perbill::mul_floor(b)`: overflow-pruned floor multiplication
`(b / ACCURACY) * parts + (b % ACCURACY) * parts / ACCURACY`, exactly as
`sp_arithmetic` computes it. -/
def Perbill.mul_floor (x : Perbill) (b : Balance) : Balance :=
  b / ACCURACY * x.parts + b % ACCURACY * x.parts / ACCURACY

/-- `Perbill::saturating_reciprocal_mul_floor(b)`:
`(b / parts).saturating_mul(ACCURACY).saturating_add((b % parts) * ACCURACY / parts)`.
When the parts are zero the crate divides by zero and panics (`none`). -/
def Perbill.saturating_reciprocal_mul_floor (x : Perbill) (b : Balance) :
    Option Balance :=
  if x.parts = 0 then none
  else some (min (min (b / x.parts * ACCURACY) U128_MAX
    + b % x.parts * ACCURACY / x.parts) U128_MAX)

/-- `types.rs`: `SharePrice(Perbill)`. -/
structure SharePrice where
  price : Perbill
deriving DecidableEq

/-- `SharePrice::new(shares, stake)`: `Perbill::one()` if either input is
zero, else `Perbill::from_rational(shares, stake)`. -/
def SharePrice.new (shares stake : Balance) : SharePrice :=
  ⟨if shares = 0 ∨ stake = 0 then Perbill.one
    else Perbill.from_rational shares stake⟩

/-- `SharePrice::stake_to_shares`. -/
def SharePrice.stake_to_shares (sp : SharePrice) (stake : Balance) : Balance :=
  if sp.price.parts = ACCURACY then stake else sp.price.mul_floor stake

/-- `SharePrice::shares_to_stake`; partial because
`saturating_reciprocal_mul_floor` panics on a zero-parts price. -/
def SharePrice.shares_to_stake (sp : SharePrice) (shares : Balance) :
    Option Balance :=
  if sp.price.parts = ACCURACY then some shares
  else sp.price.saturating_reciprocal_mul_floor shares

/-- `types.rs`: `StorageFundRedeemPrice((Balance, Balance))`. -/
structure StorageFundRedeemPrice where
  total_balance : Balance
  total_deposit : Balance
deriving DecidableEq

/-- `StorageFundRedeemPrice::new`. -/
def StorageFundRedeemPrice.new (total_balance total_deposit : Balance) :
    StorageFundRedeemPrice :=
  ⟨total_balance, total_deposit⟩

/-- `StorageFundRedeemPrice::redeem(deposit)`. -/
def StorageFundRedeemPrice.redeem (p : StorageFundRedeemPrice)
    (deposit : Balance) : Balance :=
  if p.total_balance = p.total_deposit then deposit
  else (Perbill.from_rational deposit p.total_deposit).mul_floor p.total_balance

/-- `DomainEpoch(DomainId, EpochIndex)` (both `u32` on chain). -/
structure DomainEpoch where
  domain_id : Nat
  epoch_index : Nat
deriving DecidableEq

/-- `KnownDeposit`. -/
structure KnownDeposit where
  shares : Balance
  storage_fee_deposit : Balance
deriving DecidableEq

/-- `PendingDeposit`. -/
structure PendingDeposit where
  effective_domain_epoch : DomainEpoch
  amount : Balance
  storage_fee_deposit : Balance
deriving DecidableEq

/-- `Deposit`. -/
structure Deposit where
  known : KnownDeposit
  pending : Option PendingDeposit
deriving DecidableEq

/-- `WithdrawalInBalance`. -/
structure WithdrawalInBalance where
  domain_id : Nat
  unlock_at_confirmed_domain_block_number : Nat
  amount_to_unlock : Balance
  storage_fee_refund : Balance
deriving DecidableEq

/-- `WithdrawalInShares`. -/
structure WithdrawalInShares where
  domain_epoch : DomainEpoch
  unlock_at_confirmed_domain_block_number : Nat
  shares : Balance
  storage_fee_refund : Balance
deriving DecidableEq

/-- `Withdrawal`; the `VecDeque` is a list whose back is the end of the list. -/
structure Withdrawal where
  total_withdrawal_amount : Balance
  withdrawals : List WithdrawalInBalance
  withdrawal_in_shares : Option WithdrawalInShares
deriving DecidableEq

/-- `NominatorStorage`. -/
structure NominatorStorage where
  deposit : Deposit
  withdrawal : Option Withdrawal
deriving DecidableEq

/-- The four `Operator` fields the settlement engine reads. -/
structure Operator where
  current_total_stake : Balance
  current_epoch_rewards : Balance
  current_total_shares : Balance
  total_storage_fee_deposit : Balance
deriving DecidableEq

/-- A share-price lookup, abstracting the storage fetch
`get_operator_epoch_share_price` (operator id and block hash fixed). -/
abbrev PriceLookup := DomainEpoch → Option SharePrice

/-- `main.rs::do_convert_previous_epoch_deposits`.  The source first
`take()`s the pending deposit (clearing the field), then looks up the epoch
share price; on success it adds the converted shares and the pending storage
fee to the known deposit with `checked_add(..).unwrap()`. -/
def do_convert_previous_epoch_deposits (lookup : PriceLookup) (d : Deposit) :
    Option Deposit :=
  match d.pending with
  | none => some d
  | some pd =>
    let d0 : Deposit := { d with pending := none }
    match lookup pd.effective_domain_epoch with
    | none => some d0
    | some epoch_share_price => do
      let new_shares := epoch_share_price.stake_to_shares pd.amount
      let s ← checked_add d0.known.shares new_shares
      let f ← checked_add d0.known.storage_fee_deposit pd.storage_fee_deposit
      some { d0 with known := { shares := s, storage_fee_deposit := f } }

/-- `main.rs::do_convert_previous_epoch_withdrawal`.  The source first
`take()`s the withdrawal-in-shares (clearing the field), then looks up the
epoch share price; on success it converts the shares
(`shares_to_stake`, which can panic on a zero-parts price), adds the amount
to `total_withdrawal_amount` with `checked_add(..).unwrap()` and pushes a new
`WithdrawalInBalance` to the back of the queue. -/
def do_convert_previous_epoch_withdrawal (lookup : PriceLookup)
    (w : Withdrawal) : Option Withdrawal :=
  match w.withdrawal_in_shares with
  | none => some w
  | some pw =>
    let w0 : Withdrawal := { w with withdrawal_in_shares := none }
    match lookup pw.domain_epoch with
    | none => some w0
    | some epoch_share_price => do
      let withdrawal_amount ← epoch_share_price.shares_to_stake pw.shares
      let tot ← checked_add w0.total_withdrawal_amount withdrawal_amount
      some { w0 with
        total_withdrawal_amount := tot,
        withdrawals := w0.withdrawals ++
          [{ domain_id := pw.domain_epoch.domain_id,
             unlock_at_confirmed_domain_block_number :=
               pw.unlock_at_confirmed_domain_block_number,
             amount_to_unlock := withdrawal_amount,
             storage_fee_refund := pw.storage_fee_refund }] }

/-- One step of the deposit loop of
`main.rs::get_nominator_deposits_and_withdrawal`: insert the nominator with
its deposit and no withdrawal (a `BTreeMap::insert`, embedded as a pointwise
functional update). -/
def insert_deposit (m : AccountId → Option NominatorStorage)
    (e : AccountId × Deposit) : AccountId → Option NominatorStorage :=
  fun k => if k = e.1 then some { deposit := e.2, withdrawal := none } else m k

/-- One step of the withdrawal loop of
`main.rs::get_nominator_deposits_and_withdrawal`: a withdrawal whose
nominator has no deposit entry panics (`none`); otherwise the entry is
re-inserted with the withdrawal attached. -/
def insert_withdrawal (m : AccountId → Option NominatorStorage)
    (e : AccountId × Withdrawal) :
    Option (AccountId → Option NominatorStorage) :=
  match m e.1 with
  | none => none
  | some ns =>
    some (fun k =>
      if k = e.1 then some { deposit := ns.deposit, withdrawal := some e.2 }
      else m k)

/-- `main.rs::get_nominator_deposits_and_withdrawal`: the record assembler.
Deposits are inserted first (withdrawal `none`); each withdrawal is then
paired with the existing entry. -/
def get_nominator_deposits_and_withdrawal
    (deposits : List (AccountId × Deposit))
    (withdrawals : List (AccountId × Withdrawal)) :
    Option (AccountId → Option NominatorStorage) :=
  withdrawals.foldlM insert_withdrawal
    (deposits.foldl insert_deposit (fun _ => none))

/-- The running pool totals and outputs of the settlement of one operator
(the local mutable state of `calculate_nominators_slashed_amount`). -/
structure SettleState where
  total_stake : Balance
  total_shares : Balance
  total_storage_fee_deposit : Balance
  balances : AccountId → Option Balance
  storage_fund_deposits : List (AccountId × Balance)

/-- The `match nominator_storage.withdrawal` expression of the nominator loop
(`main.rs` lines 309-335): resolve the withdrawal, then read off
`(amount_ready_to_withdraw, shares_withdrew_in_current_epoch,
storage_fund_withdrew)`, the last being a `checked_add(..).unwrap()` fold of
the queued storage-fee refunds. -/
def process_withdrawal (lookup : PriceLookup) (ow : Option Withdrawal) :
    Option (Balance × Balance × Balance) :=
  match ow with
  | none => some ((0 : Balance), (0 : Balance), (0 : Balance))
  | some w => do
    let w ← do_convert_previous_epoch_withdrawal lookup w
    let storage_fund_withdrew ← w.withdrawals.foldlM
      (fun acc wb => checked_add acc wb.storage_fee_refund) (0 : Balance)
    some (w.total_withdrawal_amount,
      ((w.withdrawal_in_shares.map WithdrawalInShares.shares).getD 0),
      storage_fund_withdrew)

/-- The body of the nominator loop of
`main.rs::calculate_nominators_slashed_amount` (lines 300-364): resolve the
deposit and the withdrawal, deduct the storage fee of a still-pending deposit
from the running total (saturating), count the shares of the nominator
(`checked_add`), price them at the fixed `share_price`, decrement the pool
totals (saturating), and record `nominator_staked_amount +
amount_ready_to_withdraw + storage_fund_withdrew` — a plain, wrapping
addition in the source — as the slashed balance of the nominator. -/
def settle_nominator (lookup : PriceLookup) (share_price : SharePrice)
    (st : SettleState) (entry : AccountId × NominatorStorage) :
    Option SettleState := do
  let deposit ← do_convert_previous_epoch_deposits lookup entry.2.deposit
  let triple ← process_withdrawal lookup entry.2.withdrawal
  let (amount_ready_to_withdraw, shares_withdrew_in_current_epoch,
    storage_fund_withdrew) := triple
  let tsfd :=
    match deposit.pending with
    | some pending_deposit =>
      saturating_sub st.total_storage_fee_deposit
        pending_deposit.storage_fee_deposit
    | none => st.total_storage_fee_deposit
  let nominator_shares ←
    checked_add deposit.known.shares shares_withdrew_in_current_epoch
  let nominator_staked_amount ← share_price.shares_to_stake nominator_shares
  let total_slashed :=
    wrapping_add (wrapping_add nominator_staked_amount amount_ready_to_withdraw)
      storage_fund_withdrew
  some { total_stake := saturating_sub st.total_stake nominator_staked_amount,
         total_shares := saturating_sub st.total_shares nominator_shares,
         total_storage_fee_deposit := tsfd,
         balances := fun k =>
           if k = entry.1 then some total_slashed else st.balances k,
         storage_fund_deposits :=
           st.storage_fund_deposits ++
             [(entry.1, deposit.known.storage_fee_deposit)] }

/-- The storage-fund redemption pass of
`main.rs::calculate_nominators_slashed_amount` (lines 368-382): for each
recorded `(nominator, deposited_balance)` redeem against
`StorageFundRedeemPrice::new(fund_balance, total_storage_fee_deposit)` and
add — a plain, wrapping addition in the source — to the existing balance
(whose absence would panic, `none`). -/
def redeem_storage_fund_pass (fund_balance tsfd : Balance)
    (entries : List (AccountId × Balance))
    (balances : AccountId → Option Balance) :
    Option (AccountId → Option Balance) :=
  entries.foldlM
    (fun bal e => do
      let storage_fund_share_price := StorageFundRedeemPrice.new fund_balance tsfd
      let storage_fund_slashed := storage_fund_share_price.redeem e.2
      let existing_balance ← bal e.1
      some (fun k =>
        if k = e.1 then some (wrapping_add existing_balance storage_fund_slashed)
        else bal k))
    balances

/-- `main.rs::calculate_nominators_slashed_amount`: fold in the epoch
rewards (`checked_add(..).unwrap()`), fix the share price once, run the
nominator loop, then the redemption pass. -/
def calculate_nominators_slashed_amount (lookup : PriceLookup)
    (operator : Operator)
    (operator_nominators : List (AccountId × NominatorStorage))
    (operator_storage_fund_balance : Balance) :
    Option (AccountId → Option Balance) := do
  let total_stake ←
    checked_add operator.current_total_stake operator.current_epoch_rewards
  let share_price := SharePrice.new operator.current_total_shares total_stake
  let init : SettleState :=
    { total_stake := total_stake,
      total_shares := operator.current_total_shares,
      total_storage_fee_deposit := operator.total_storage_fee_deposit,
      balances := fun _ => none,
      storage_fund_deposits := [] }
  let final ← operator_nominators.foldlM (settle_nominator lookup share_price) init
  redeem_storage_fund_pass operator_storage_fund_balance
    final.total_storage_fee_deposit final.storage_fund_deposits final.balances

/-! ## Arithmetic facts about the embedded `Perbill` operations -/

theorem ACCURACY_pos : 0 < ACCURACY := by norm_num [ACCURACY]

/-- The overflow-pruned product of `mul_floor` is the exact floor
`b * parts / ACCURACY`. -/
theorem Perbill.mul_floor_eq (x : Perbill) (b : Balance) :
    x.mul_floor b = b * x.parts / ACCURACY := by
  unfold Perbill.mul_floor
  conv_rhs => rw [← Nat.div_add_mod b ACCURACY]
  rw [Nat.add_mul, Nat.mul_assoc, Nat.mul_add_div ACCURACY_pos]

/-- Splitting a floor division along `b = d * (b / d) + b % d`. -/
theorem floor_div_split (b A d : Nat) (hd : 0 < d) :
    b * A / d = b / d * A + b % d * A / d := by
  conv_lhs => rw [← Nat.div_add_mod b d]
  rw [Nat.add_mul, Nat.mul_assoc, Nat.mul_add_div hd]

/-- With nonzero parts, `saturating_reciprocal_mul_floor` is the saturated
exact floor `min (b * ACCURACY / parts) u128::MAX`. -/
theorem Perbill.saturating_reciprocal_mul_floor_eq (x : Perbill) (b : Balance)
    (h : x.parts ≠ 0) :
    x.saturating_reciprocal_mul_floor b
      = some (min (b * ACCURACY / x.parts) U128_MAX) := by
  unfold Perbill.saturating_reciprocal_mul_floor
  rw [if_neg h]
  congr 1
  rw [floor_div_split b ACCURACY x.parts (Nat.pos_of_ne_zero h)]
  rcases le_or_lt (b / x.parts * ACCURACY) U128_MAX with h1 | h1
  · rw [min_eq_left h1]
  · rw [min_eq_right (le_of_lt h1), min_eq_right, min_eq_right]
    · exact le_trans (le_of_lt h1) (Nat.le_add_right _ _)
    · exact Nat.le_add_right _ _

/-- `shares_to_stake` on a price with nonzero parts. -/
theorem SharePrice.shares_to_stake_eq (sp : SharePrice) (b : Balance)
    (h : sp.price.parts ≠ 0) :
    sp.shares_to_stake b = some (min (b * ACCURACY / sp.price.parts) U128_MAX)
      ∨ (sp.price.parts = ACCURACY ∧ sp.shares_to_stake b = some b) := by
  unfold SharePrice.shares_to_stake
  by_cases hA : sp.price.parts = ACCURACY
  · exact Or.inr ⟨hA, by rw [if_pos hA]⟩
  · rw [if_neg hA]
    exact Or.inl (Perbill.saturating_reciprocal_mul_floor_eq _ _ h)

/-- Sum of floors is at most the floor of the sum. -/
theorem add_div_le_of_pos (a b d : Nat) (hd : 0 < d) :
    a / d + b / d ≤ (a + b) / d := by
  rw [Nat.le_div_iff_mul_le hd, Nat.add_mul]
  exact Nat.add_le_add (Nat.div_mul_le_self a d) (Nat.div_mul_le_self b d)

/-! ## Claim C8: zero shares or zero stake give the identity price -/

/-- Claim C8: constructing `SharePrice::new(shares, stake)` with
`shares == 0` or `stake == 0` yields the identity price:
`stake_to_shares(x) == x` and `shares_to_stake(x) == x` for every balance
`x` (the latter returning without panic). -/
theorem share_price_degenerate_is_identity (shares stake x : Balance)
    (h : shares = 0 ∨ stake = 0) :
    (SharePrice.new shares stake).stake_to_shares x = x ∧
    (SharePrice.new shares stake).shares_to_stake x = some x := by
  unfold SharePrice.new SharePrice.stake_to_shares SharePrice.shares_to_stake
  rw [if_pos h]
  exact ⟨rfl, rfl⟩

theorem share_price_degenerate_is_identity_witness :
    ((0 : Balance) = 0 ∨ (25 : Balance) = 0) ∧
    (SharePrice.new 0 25).stake_to_shares 7 = 7 ∧
    (SharePrice.new 0 25).shares_to_stake 7 = some 7 :=
  ⟨Or.inl rfl, share_price_degenerate_is_identity 0 25 7 (Or.inl rfl)⟩

/-! ## Claim C9: full-pool storage-fund redemption is exact -/

/-- Claim C9: for every fund balance `B` and total deposit `D > 0`,
`StorageFundRedeemPrice::new(B, D).redeem(D) = B` — redeeming the entire
deposit total recovers exactly the fund balance. -/
theorem storage_fund_full_redemption_exact (B D : Balance) (h : 0 < D) :
    (StorageFundRedeemPrice.new B D).redeem D = B := by
  unfold StorageFundRedeemPrice.new StorageFundRedeemPrice.redeem
  by_cases hBD : B = D
  · rw [if_pos hBD]
    exact hBD.symm
  · rw [if_neg hBD]
    unfold Perbill.from_rational
    have hcond : ¬ (D = 0 ∨ D < D) := by
      rintro (h0 | hlt)
      · exact absurd h0 (Nat.pos_iff_ne_zero.mp h)
      · exact lt_irrefl D hlt
    rw [if_neg hcond]
    rw [Perbill.mul_floor_eq]
    show B * (D * ACCURACY / D) / ACCURACY = B
    rw [Nat.mul_comm D ACCURACY, Nat.mul_div_cancel _ h,
      Nat.mul_div_cancel _ ACCURACY_pos]

theorem storage_fund_full_redemption_exact_witness :
    (0 : Balance) < 3 ∧ (StorageFundRedeemPrice.new 7 3).redeem 3 = 7 :=
  ⟨by norm_num, storage_fund_full_redemption_exact 7 3 (by norm_num)⟩

/-! ## Claim C10: epoch resolution always clears the pending component -/

/-- Claim C10: whenever `do_convert_previous_epoch_deposits` returns, the
pending deposit is `none`, and whenever `do_convert_previous_epoch_withdrawal`
returns, `withdrawal_in_shares` is `none` — whether or not the share-price
lookup succeeded; moreover, when the lookup returns `none`, the result is the
input with the pending component removed and everything else (in particular
the known/settled part) unchanged: the pending amount or shares and the
associated storage-fee value are discarded. -/
theorem epoch_resolution_always_clears_pending :
    (∀ (lookup : PriceLookup) (d d' : Deposit),
        do_convert_previous_epoch_deposits lookup d = some d' →
          d'.pending = none) ∧
    (∀ (lookup : PriceLookup) (w w' : Withdrawal),
        do_convert_previous_epoch_withdrawal lookup w = some w' →
          w'.withdrawal_in_shares = none) ∧
    (∀ (lookup : PriceLookup) (pd : PendingDeposit) (d : Deposit),
        d.pending = some pd → lookup pd.effective_domain_epoch = none →
          do_convert_previous_epoch_deposits lookup d
            = some { d with pending := none }) ∧
    (∀ (lookup : PriceLookup) (pw : WithdrawalInShares) (w : Withdrawal),
        w.withdrawal_in_shares = some pw → lookup pw.domain_epoch = none →
          do_convert_previous_epoch_withdrawal lookup w
            = some { w with withdrawal_in_shares := none }) := by
  refine ⟨?_, ?_, ?_, ?_⟩
  · intro lookup d d' h
    cases hp : d.pending with
    | none =>
      simp only [do_convert_previous_epoch_deposits, hp, Option.some.injEq] at h
      cases h
      exact hp
    | some pd =>
      simp only [do_convert_previous_epoch_deposits, hp] at h
      cases hl : lookup pd.effective_domain_epoch with
      | none =>
        rw [hl] at h
        simp only [Option.some.injEq] at h
        rw [← h]
      | some sp =>
        rw [hl] at h
        simp only [Option.bind_eq_bind, Option.bind_eq_some,
          Option.some.injEq] at h
        obtain ⟨s, hs, f, hf, h⟩ := h
        rw [← h]
  · intro lookup w w' h
    cases hp : w.withdrawal_in_shares with
    | none =>
      simp only [do_convert_previous_epoch_withdrawal, hp,
        Option.some.injEq] at h
      cases h
      exact hp
    | some pw =>
      simp only [do_convert_previous_epoch_withdrawal, hp] at h
      cases hl : lookup pw.domain_epoch with
      | none =>
        rw [hl] at h
        simp only [Option.some.injEq] at h
        rw [← h]
      | some sp =>
        rw [hl] at h
        simp only [Option.bind_eq_bind, Option.bind_eq_some,
          Option.some.injEq] at h
        obtain ⟨a, ha, t, ht, h⟩ := h
        rw [← h]
  · intro lookup pd d hp hl
    simp only [do_convert_previous_epoch_deposits, hp, hl]
  · intro lookup pw w hp hl
    simp only [do_convert_previous_epoch_withdrawal, hp, hl]

/-- Witness for C10, fields in constructor order: the deposit has known
shares 100 with storage fee 7 and a pending deposit of amount 50,
storage fee 5, at epoch (0, 5); the lookup always returns `none`. -/
theorem epoch_resolution_always_clears_pending_witness :
    do_convert_previous_epoch_deposits (fun _ => none)
      ⟨⟨100, 7⟩, some ⟨⟨0, 5⟩, 50, 5⟩⟩ = some ⟨⟨100, 7⟩, none⟩ :=
  epoch_resolution_always_clears_pending.2.2.1 (fun _ => none) _ _ rfl rfl

/-! ## Claim C1: an unresolved pending component is NOT left untouched -/

/-- Claim C1, evaluated at the failing input: with a share-price lookup that
returns `none` (epoch not yet closed), `do_convert_previous_epoch_deposits`
does not return its input unchanged — the pending deposit has been removed
by the unconditional `take()` — and likewise
`do_convert_previous_epoch_withdrawal` removes the withdrawal-in-shares
component.  The spec requires the pending component to still be present and
untouched. -/
theorem unresolved_pending_component_removed :
    (do_convert_previous_epoch_deposits (fun _ => none)
        ⟨⟨12, 3⟩, some ⟨⟨0, 8⟩, 40, 6⟩⟩ = some ⟨⟨12, 3⟩, none⟩) ∧
    (Deposit.mk ⟨12, 3⟩ none ≠ ⟨⟨12, 3⟩, some ⟨⟨0, 8⟩, 40, 6⟩⟩) ∧
    (do_convert_previous_epoch_withdrawal (fun _ => none)
        ⟨20, [], some ⟨⟨0, 8⟩, 9, 10, 3⟩⟩ = some ⟨20, [], none⟩) ∧
    (Withdrawal.mk 20 [] none ≠ ⟨20, [], some ⟨⟨0, 8⟩, 9, 10, 3⟩⟩) := by
  refine ⟨rfl, by decide, rfl, by decide⟩

/-! ## Claim C2: the pending storage fee is never deducted from the total -/

/-- Claim C2, evaluated at the failing input: a nominator whose pending
deposit (storage fee 5) stays unresolved because the share-price lookup
returns `none`.  Since `do_convert_previous_epoch_deposits` already removed
the pending component, the `if let Some(pending_deposit)` branch of the
settlement loop never fires and the running `total_storage_fee_deposit`
stays at 100 instead of dropping to `100 - 5 = 95` as the spec requires
(the identity share price `SharePrice::new(100, 100)` prices the 10 known
shares). -/
theorem pending_storage_fee_never_deducted :
    (settle_nominator (fun _ => none) (SharePrice.new 100 100)
        ⟨100, 100, 100, fun _ => none, []⟩
        (0, ⟨⟨⟨10, 7⟩, some ⟨⟨0, 5⟩, 50, 5⟩⟩, none⟩)).map
      SettleState.total_storage_fee_deposit = some 100 ∧
    some (100 : Balance) ≠ some (saturating_sub 100 5) := by
  refine ⟨by decide, by decide⟩

/-! ## Claim C3: unresolved withdrawal shares are never counted -/

/-- Claim C3, evaluated at the failing input: a nominator with 5 known
shares and a withdrawal-in-shares of 10 shares whose share-price lookup
returns `none`.  Since `do_convert_previous_epoch_withdrawal` already
removed the `withdrawal_in_shares` component,
`shares_withdrew_in_current_epoch` is read off the cleared record as 0, so
`nominator_shares = 5` rather than `5 + 10 = 15` as the spec requires: the
pool total drops from 100 to 95 (not 85) and the stake claim at the
identity price is 5 (not 15). -/
theorem unresolved_withdrawal_shares_never_counted :
    (settle_nominator (fun _ => none) (SharePrice.new 100 100)
        ⟨100, 100, 0, fun _ => none, []⟩
        (0, ⟨⟨⟨5, 0⟩, none⟩, some ⟨0, [], some ⟨⟨0, 5⟩, 9, 10, 0⟩⟩⟩)).map
      (fun st => (st.total_shares, st.balances 0)) = some (95, some 5) ∧
    ((95 : Balance), some (5 : Balance)) ≠ ((85 : Balance), some (15 : Balance)) := by
  refine ⟨by decide, by decide⟩

/-! ## Claim C5: the settled-balance additions wrap instead of aborting -/

/-- Claim C5 counterexample: a nominator whose stake claim (`2 ^ 127` shares
at the identity price) plus ready-to-withdraw amount (`2 ^ 127`) overflows
`u128`.  The settlement loop does not abort: the plain addition
`nominator_staked_amount + amount_ready_to_withdraw + storage_fund_withdrew`
wraps to 0 and the nominator is recorded with a settled balance of 0 —
refuting the claim that this addition is checked and aborts on overflow. -/
theorem settled_balance_overflow_wraps_instead_of_aborting :
    (settle_nominator (fun _ => none) (SharePrice.new 0 0)
        ⟨0, 0, 0, fun _ => none, []⟩
        (7, ⟨⟨⟨2 ^ 127, 0⟩, none⟩, some ⟨2 ^ 127, [], none⟩⟩)).map
      (fun st => st.balances 7) = some (some 0) ∧
    2 ^ 127 + 2 ^ 127 = U128_MOD := by
  refine ⟨by decide, by decide⟩

/-- Claim C5 amended: the two additions that accumulate a settled balance —
`nominator_staked_amount + amount_ready_to_withdraw + storage_fund_withdrew`
in the settlement loop and `existing_balance + storage_fund_slashed` in the
redemption pass — are plain (wrapping) additions, not checked ones: whenever
the surrounding checked operations succeed, the step succeeds and records
the sum modulo `2 ^ 128`, wrapping rather than aborting on overflow.  (The
other accumulations of the loop — the rewards fold-in, the conversion
additions, the refund fold and `nominator_shares` — are checked.) -/
theorem settled_balance_additions_wrap :
    (∀ (lookup : PriceLookup) (sp : SharePrice) (st : SettleState)
        (nid : AccountId) (ns : NominatorStorage) (d' : Deposit)
        (ready pend_shares refund shares staked : Balance),
        do_convert_previous_epoch_deposits lookup ns.deposit = some d' →
        process_withdrawal lookup ns.withdrawal
          = some (ready, pend_shares, refund) →
        checked_add d'.known.shares pend_shares = some shares →
        sp.shares_to_stake shares = some staked →
        ∃ st', settle_nominator lookup sp st (nid, ns) = some st' ∧
          st'.balances nid = some ((staked + ready + refund) % U128_MOD)) ∧
    (∀ (fund tsfd dep existing : Balance) (nid : AccountId)
        (bal : AccountId → Option Balance),
        bal nid = some existing →
        ∃ bal', redeem_storage_fund_pass fund tsfd [(nid, dep)] bal = some bal' ∧
          bal' nid = some ((existing
            + (StorageFundRedeemPrice.new fund tsfd).redeem dep) % U128_MOD)) := by
  constructor
  · intro lookup sp st nid ns d' ready pend_shares refund shares staked
      hd hw hs hp
    simp only [settle_nominator, hd, hw, hs, hp, Option.bind_eq_bind,
      Option.some_bind]
    refine ⟨_, rfl, ?_⟩
    simp only [eq_self_iff_true, if_true]
    unfold wrapping_add
    rw [Nat.mod_add_mod]
  · intro fund tsfd dep existing nid bal hb
    simp only [redeem_storage_fund_pass, List.foldlM, hb,
      Option.bind_eq_bind, Option.some_bind]
    refine ⟨_, rfl, ?_⟩
    simp only [eq_self_iff_true, if_true]
    unfold wrapping_add
    rfl

theorem settled_balance_additions_wrap_witness :
    ∃ st', settle_nominator (fun _ => none) (SharePrice.new 0 0)
        ⟨0, 0, 0, fun _ => none, []⟩ (3, ⟨⟨⟨4, 0⟩, none⟩, none⟩) = some st' ∧
      st'.balances 3 = some ((4 + 0 + 0) % U128_MOD) :=
  settled_balance_additions_wrap.1 (fun _ => none) (SharePrice.new 0 0)
    ⟨0, 0, 0, fun _ => none, []⟩ 3 ⟨⟨⟨4, 0⟩, none⟩, none⟩ ⟨⟨4, 0⟩, none⟩
    0 0 0 4 4 rfl rfl (by decide) (by decide)

/-! ## Claim C7: the share-price round trip -/

/-- Claim C7 counterexample: at `shares = 1`, `stake = 2000000000` the
constructed price `Perbill::from_rational(1, 2000000000)` rounds down to 0
parts; `stake_to_shares(stake)` is then 0 and `shares_to_stake(0)` divides
by the zero parts and panics (`none`), so the round trip is not a value
`≤ stake` — the claim fails for prices whose parts round to zero. -/
theorem round_trip_panics_on_zero_parts_price :
    (0 : Balance) < 2000000000 ∧
    (SharePrice.new 1 2000000000).shares_to_stake
      ((SharePrice.new 1 2000000000).stake_to_shares 2000000000) = none := by
  refine ⟨by decide, by decide⟩

/-- Claim C7 amended: for all `shares` and `stake` with `stake > 0`, and
with the price not rounding to zero parts (`stake ≤ shares * ACCURACY`, or
`shares = 0` which gives the identity price), the round trip
`shares_to_stake(stake_to_shares(stake))` is defined and never overstates:
its value is `≤ stake`. -/
theorem round_trip_never_overstates (shares stake : Balance)
    (hpos : 0 < stake) (hdef : stake ≤ shares * ACCURACY ∨ shares = 0) :
    ∃ v, (SharePrice.new shares stake).shares_to_stake
        ((SharePrice.new shares stake).stake_to_shares stake) = some v ∧
      v ≤ stake := by
  rcases Nat.eq_zero_or_pos shares with hsz | hspos
  · subst hsz
    have h1 : (SharePrice.new 0 stake).price.parts = ACCURACY := by
      unfold SharePrice.new
      rw [if_pos (Or.inl rfl)]
      rfl
    refine ⟨stake, ?_, le_refl stake⟩
    unfold SharePrice.stake_to_shares SharePrice.shares_to_stake
    simp [h1]
  · have hne : ¬ (shares = 0 ∨ stake = 0) := by
      rintro (h0 | h0)
      · exact absurd h0 (Nat.pos_iff_ne_zero.mp hspos)
      · exact absurd h0 (Nat.pos_iff_ne_zero.mp hpos)
    have hprice : SharePrice.new shares stake
        = ⟨Perbill.from_rational shares stake⟩ := by
      unfold SharePrice.new
      rw [if_neg hne]
    by_cases hlt : stake < shares
    · have hparts : (SharePrice.new shares stake).price.parts = ACCURACY := by
        rw [hprice]
        unfold Perbill.from_rational
        rw [if_pos (Or.inr hlt)]
        rfl
      refine ⟨stake, ?_, le_refl stake⟩
      unfold SharePrice.stake_to_shares SharePrice.shares_to_stake
      simp [hparts]
    · have hparts : (SharePrice.new shares stake).price.parts
          = shares * ACCURACY / stake := by
        rw [hprice]
        unfold Perbill.from_rational
        rw [if_neg (by
          rintro (h0 | h0)
          · exact absurd h0 (Nat.pos_iff_ne_zero.mp hpos)
          · exact hlt h0)]
    -- from here on write d for the rounded parts
      have hdpos : 0 < shares * ACCURACY / stake := by
        rcases hdef with hA | h0
        · exact (Nat.one_le_div_iff hpos).mpr hA
        · exact absurd h0 (Nat.pos_iff_ne_zero.mp hspos)
      by_cases hdA : shares * ACCURACY / stake = ACCURACY
      · refine ⟨stake, ?_, le_refl stake⟩
        unfold SharePrice.stake_to_shares SharePrice.shares_to_stake
        rw [hparts, hdA]
        simp
      · have hy : (SharePrice.new shares stake).stake_to_shares stake
            = stake * (shares * ACCURACY / stake) / ACCURACY := by
          unfold SharePrice.stake_to_shares
          rw [hparts, if_neg hdA, Perbill.mul_floor_eq, hparts]
        have hv : (SharePrice.new shares stake).shares_to_stake
              (stake * (shares * ACCURACY / stake) / ACCURACY)
            = some (min (stake * (shares * ACCURACY / stake) / ACCURACY
                * ACCURACY / (shares * ACCURACY / stake)) U128_MAX) := by
          unfold SharePrice.shares_to_stake
          rw [hparts, if_neg hdA,
            Perbill.saturating_reciprocal_mul_floor_eq _ _
              (by rw [hparts]; exact Nat.pos_iff_ne_zero.mp hdpos), hparts]
        refine ⟨_, by rw [hy]; exact hv, ?_⟩
        have h1 : stake * (shares * ACCURACY / stake) / ACCURACY * ACCURACY
            ≤ stake * (shares * ACCURACY / stake) :=
          Nat.div_mul_le_self _ _
        have h2 : stake * (shares * ACCURACY / stake) / ACCURACY * ACCURACY
              / (shares * ACCURACY / stake)
            ≤ stake := by
          have h3 : stake * (shares * ACCURACY / stake) / ACCURACY * ACCURACY
                / (shares * ACCURACY / stake)
              ≤ stake * (shares * ACCURACY / stake)
                / (shares * ACCURACY / stake) :=
            Nat.div_le_div_right h1
          rwa [Nat.mul_div_cancel _ hdpos] at h3
        exact le_trans (min_le_left _ _) h2

theorem round_trip_never_overstates_witness :
    ∃ v, (SharePrice.new 500 1000).shares_to_stake
        ((SharePrice.new 500 1000).stake_to_shares 1000) = some v ∧
      v ≤ 1000 :=
  round_trip_never_overstates 500 1000 (by decide) (Or.inl (by decide))

/-! ## Claim C4: conservation of the summed stake claims -/

/-- Any defined `shares_to_stake` value on a price with parts `d > 0` is at
most the exact floor `a * ACCURACY / d`. -/
theorem shares_to_stake_le (d a b : Balance) (hd : 0 < d)
    (h : (SharePrice.mk ⟨d⟩).shares_to_stake a = some b) :
    b ≤ a * ACCURACY / d := by
  unfold SharePrice.shares_to_stake at h
  by_cases hA : d = ACCURACY
  · rw [if_pos hA] at h
    cases h
    subst hA
    rw [Nat.mul_div_cancel _ hd]
  · rw [if_neg hA,
      Perbill.saturating_reciprocal_mul_floor_eq _ _
        (Nat.pos_iff_ne_zero.mp hd)] at h
    cases h
    exact min_le_left _ _

/-- Summing the defined `shares_to_stake` values bounds by the floor of the
summed shares (floors only lose mass). -/
theorem mapM_shares_to_stake_sum_le (d : Balance) (hd : 0 < d) :
    ∀ ss cs : List Balance,
      ss.mapM (SharePrice.mk ⟨d⟩).shares_to_stake = some cs →
      cs.sum ≤ ss.sum * ACCURACY / d := by
  intro ss
  induction ss with
  | nil =>
    intro cs h
    simp only [List.mapM_nil, pure, Option.some.injEq] at h
    simp [← h]
  | cons a l ih =>
    intro cs h
    simp only [List.mapM_cons, Option.bind_eq_bind, Option.bind_eq_some,
      pure, Option.some.injEq] at h
    obtain ⟨b, hb, bs, hbs, hcs⟩ := h
    have h1 : b ≤ a * ACCURACY / d := shares_to_stake_le d a b hd hb
    have h2 : bs.sum ≤ l.sum * ACCURACY / d := ih bs hbs
    calc cs.sum = b + bs.sum := by rw [← hcs]; simp
    _ ≤ a * ACCURACY / d + l.sum * ACCURACY / d := Nat.add_le_add h1 h2
    _ ≤ (a * ACCURACY + l.sum * ACCURACY) / d := add_div_le_of_pos _ _ _ hd
    _ = (a + l.sum) * ACCURACY / d := by rw [Nat.add_mul]
    _ = (a :: l).sum * ACCURACY / d := by simp

/-- Claim C4 counterexample: operator pool with `current_total_shares = 1`
and pre-settlement `total_stake = 600000000`.  The constructed price
`Perbill::from_rational(1, 600000000)` rounds down to a single part, so the
sole nominator with 1 share (combined shares 1 ≤ total shares 1, a valid
set) gets `shares_to_stake(1) = 10 ^ 9 > 600000000`: the summed claims
exceed the pre-settlement total stake, both at the `SharePrice` level and
through the full settlement engine. -/
theorem nominator_claims_can_exceed_pool :
    ([1] : List Balance).sum ≤ 1 ∧
    ([1] : List Balance).mapM (SharePrice.new 1 600000000).shares_to_stake
      = some [1000000000] ∧
    ¬ ((1000000000 : Nat) ≤ 600000000) ∧
    (calculate_nominators_slashed_amount (fun _ => none) ⟨600000000, 0, 1, 0⟩
        [(0, ⟨⟨⟨1, 0⟩, none⟩, none⟩)] 0).map (fun m => m 0)
      = some (some 1000000000) := by
  refine ⟨by decide, by decide, by decide, by decide⟩

/-- Claim C4 amended: for every valid nominator set (summed nominator
shares `ss` at most `total_shares`), and with the fixed step-3 price
`SharePrice::new(total_shares, total_stake)` representing the ratio exactly
and in range — `total_stake > 0`, `total_shares ≤ total_stake`, and
`total_stake` divides `total_shares * ACCURACY`, so that no rounding occurs
in the price construction — the sum of the defined per-nominator stake
claims `shares_to_stake` is at most the pre-settlement `total_stake`. -/
theorem nominator_claims_conserved_for_exact_price
    (total_shares total_stake : Balance) (ss cs : List Balance)
    (hpos : 0 < total_stake) (hle : total_shares ≤ total_stake)
    (hdvd : total_stake ∣ total_shares * ACCURACY)
    (hsum : ss.sum ≤ total_shares)
    (hmap : ss.mapM (SharePrice.new total_shares total_stake).shares_to_stake
      = some cs) :
    cs.sum ≤ total_stake := by
  rcases Nat.eq_zero_or_pos total_shares with hz | hspos
  · subst hz
    have hprice : SharePrice.new 0 total_stake = ⟨⟨ACCURACY⟩⟩ := by
      unfold SharePrice.new
      rw [if_pos (Or.inl rfl)]
      rfl
    rw [hprice] at hmap
    have h1 := mapM_shares_to_stake_sum_le ACCURACY ACCURACY_pos ss cs hmap
    rw [Nat.mul_div_cancel _ ACCURACY_pos] at h1
    exact le_trans h1 (le_trans hsum (Nat.zero_le _))
  · have hne : ¬ (total_shares = 0 ∨ total_stake = 0) := by
      rintro (h0 | h0)
      · exact absurd h0 (Nat.pos_iff_ne_zero.mp hspos)
      · exact absurd h0 (Nat.pos_iff_ne_zero.mp hpos)
    have hprice : SharePrice.new total_shares total_stake
        = ⟨⟨total_shares * ACCURACY / total_stake⟩⟩ := by
      unfold SharePrice.new Perbill.from_rational
      rw [if_neg hne, if_neg (by
        rintro (h0 | h0)
        · exact absurd h0 (Nat.pos_iff_ne_zero.mp hpos)
        · exact absurd hle (not_le.mpr h0))]
    have hexact : total_shares * ACCURACY / total_stake * total_stake
        = total_shares * ACCURACY := Nat.div_mul_cancel hdvd
    have hdpos : 0 < total_shares * ACCURACY / total_stake :=
      (Nat.one_le_div_iff hpos).mpr
        (Nat.le_of_dvd (Nat.mul_pos hspos ACCURACY_pos) hdvd)
    rw [hprice] at hmap
    have h1 := mapM_shares_to_stake_sum_le _ hdpos ss cs hmap
    have h2 : ss.sum * ACCURACY / (total_shares * ACCURACY / total_stake)
        ≤ total_shares * ACCURACY / (total_shares * ACCURACY / total_stake) :=
      Nat.div_le_div_right (Nat.mul_le_mul_right _ hsum)
    have h3 : total_shares * ACCURACY / (total_shares * ACCURACY / total_stake)
        = total_stake := by
      nth_rewrite 1 [← hexact]
      rw [Nat.mul_div_cancel_left _ hdpos]
    exact le_trans h1 (le_trans h2 (le_of_eq h3))

theorem nominator_claims_conserved_for_exact_price_witness :
    (0 : Balance) < 1000 ∧ (500 : Balance) ≤ 1000 ∧
    (1000 : Nat) ∣ 500 * ACCURACY ∧
    ([300, 200] : List Balance).sum ≤ 500 ∧
    ([300, 200] : List Balance).mapM
      (SharePrice.new 500 1000).shares_to_stake = some [600, 400] ∧
    ([600, 400] : List Balance).sum ≤ 1000 :=
  ⟨by decide, by decide, ⟨500 * ACCURACY / 1000, by decide⟩, by decide,
    by decide,
    nominator_claims_conserved_for_exact_price 500 1000 [300, 200] [600, 400]
      (by decide) (by decide) ⟨500 * ACCURACY / 1000, by decide⟩ (by decide)
      (by decide)⟩

/-! ## Claim C6: the record assembler -/

theorem deposit_fold_not_mem :
    ∀ (deposits : List (AccountId × Deposit))
      (acc : AccountId → Option NominatorStorage) (n : AccountId),
      n ∉ deposits.map Prod.fst →
      deposits.foldl insert_deposit acc n = acc n := by
  intro deposits
  induction deposits with
  | nil => intro acc n _; rfl
  | cons e rest ih =>
    intro acc n h
    simp only [List.map_cons, List.mem_cons, not_or] at h
    obtain ⟨h1, h2⟩ := h
    rw [List.foldl_cons, ih _ n h2]
    unfold insert_deposit
    rw [if_neg h1]

theorem deposit_fold_mem :
    ∀ (deposits : List (AccountId × Deposit))
      (acc : AccountId → Option NominatorStorage) (n : AccountId) (d : Deposit),
      (deposits.map Prod.fst).Nodup → (n, d) ∈ deposits →
      deposits.foldl insert_deposit acc n
        = some { deposit := d, withdrawal := none } := by
  intro deposits
  induction deposits with
  | nil => intro acc n d _ h; cases h
  | cons e rest ih =>
    intro acc n d hnd hmem
    simp only [List.map_cons, List.nodup_cons] at hnd
    obtain ⟨hnotin, hnd2⟩ := hnd
    rw [List.foldl_cons]
    rcases List.mem_cons.mp hmem with heq | htail
    · have heq2 := heq.symm
      subst heq2
      rw [deposit_fold_not_mem rest _ n hnotin]
      unfold insert_deposit
      rw [if_pos rfl]
    · exact ih _ n d hnd2 htail

theorem insert_withdrawal_some (m : AccountId → Option NominatorStorage)
    (e : AccountId × Withdrawal) (m1 : AccountId → Option NominatorStorage)
    (h : insert_withdrawal m e = some m1) :
    ∃ ns, m e.1 = some ns ∧ ∀ k, m1 k
      = if k = e.1 then some { deposit := ns.deposit, withdrawal := some e.2 }
        else m k := by
  unfold insert_withdrawal at h
  cases hm : m e.1 with
  | none => rw [hm] at h; cases h
  | some ns =>
    rw [hm] at h
    cases h
    exact ⟨ns, rfl, fun k => rfl⟩

theorem insert_withdrawal_none_iff (m : AccountId → Option NominatorStorage)
    (e : AccountId × Withdrawal) :
    insert_withdrawal m e = none ↔ m e.1 = none := by
  unfold insert_withdrawal
  cases hm : m e.1 with
  | none => simp [hm]
  | some ns => simp [hm]

theorem lookup_none_of_not_mem_keys {β : Type} :
    ∀ (l : List (AccountId × β)) (n : AccountId),
      n ∉ l.map Prod.fst → List.lookup n l = none := by
  intro l
  induction l with
  | nil => intro n _; rfl
  | cons e rest ih =>
    intro n h
    obtain ⟨a, b⟩ := e
    simp only [List.map_cons, List.mem_cons, not_or] at h
    obtain ⟨h1, h2⟩ := h
    have hb : (n == a) = false := beq_eq_false_iff_ne.mpr h1
    simp only [List.lookup, hb]
    exact ih n h2

theorem withdrawal_fold_none_iff :
    ∀ (ws : List (AccountId × Withdrawal))
      (m0 : AccountId → Option NominatorStorage),
      ws.foldlM insert_withdrawal m0 = none ↔ ∃ e ∈ ws, m0 e.1 = none := by
  intro ws
  induction ws with
  | nil =>
    intro m0
    simp [List.foldlM_nil]
  | cons e rest ih =>
    intro m0
    rw [List.foldlM_cons]
    cases he : insert_withdrawal m0 e with
    | none =>
      simp only [Option.bind_eq_bind, Option.none_bind]
      constructor
      · intro _
        exact ⟨e, List.mem_cons_self e rest,
          (insert_withdrawal_none_iff m0 e).mp he⟩
      · intro _; trivial
    | some m1 =>
      simp only [Option.bind_eq_bind, Option.some_bind]
      rw [ih m1]
      obtain ⟨ns, hns, hm1⟩ := insert_withdrawal_some m0 e m1 he
      constructor
      · rintro ⟨f, hf, hnone⟩
        refine ⟨f, List.mem_cons_of_mem e hf, ?_⟩
        rw [hm1 f.1] at hnone
        by_cases hk : f.1 = e.1
        · rw [if_pos hk] at hnone; cases hnone
        · rw [if_neg hk] at hnone; exact hnone
      · rintro ⟨f, hf, hnone⟩
        rcases List.mem_cons.mp hf with heq | htail
        · subst heq
          rw [hnone] at hns
          cases hns
        · refine ⟨f, htail, ?_⟩
          rw [hm1 f.1]
          by_cases hk : f.1 = e.1
          · rw [hk] at hnone
            rw [hnone] at hns
            cases hns
          · rw [if_neg hk]
            exact hnone

theorem withdrawal_fold_some_spec :
    ∀ (ws : List (AccountId × Withdrawal))
      (m0 m : AccountId → Option NominatorStorage),
      (ws.map Prod.fst).Nodup →
      ws.foldlM insert_withdrawal m0 = some m →
      ∀ n, (List.lookup n ws = none → m n = m0 n) ∧
        (∀ w, List.lookup n ws = some w →
          ∃ ns, m0 n = some ns ∧
            m n = some { deposit := ns.deposit, withdrawal := some w }) := by
  intro ws
  induction ws with
  | nil =>
    intro m0 m _ h n
    simp only [List.foldlM_nil, Option.pure_def, Option.some.injEq] at h
    subst h
    exact ⟨fun _ => rfl, fun w hw => by cases hw⟩
  | cons e rest ih =>
    intro m0 m hnd h n
    obtain ⟨a, w0⟩ := e
    simp only [List.map_cons, List.nodup_cons] at hnd
    obtain ⟨hnotin, hnd2⟩ := hnd
    rw [List.foldlM_cons] at h
    cases he : insert_withdrawal m0 (a, w0) with
    | none =>
      rw [he] at h
      simp only [Option.bind_eq_bind, Option.none_bind] at h
      exact Option.noConfusion h
    | some m1 =>
      rw [he] at h
      simp only [Option.bind_eq_bind, Option.some_bind] at h
      obtain ⟨ns, hns, hm1⟩ := insert_withdrawal_some m0 (a, w0) m1 he
      dsimp only at hns hm1
      have spec := ih m1 m hnd2 h
      by_cases hk : n = a
      · subst hk
        have hb : (n == n) = true := by simp
        constructor
        · intro hlk
          simp only [List.lookup, hb] at hlk
          exact Option.noConfusion hlk
        · intro w hw
          simp only [List.lookup, hb, Option.some.injEq] at hw
          subst hw
          refine ⟨ns, hns, ?_⟩
          have hlrest : List.lookup n rest = none :=
            lookup_none_of_not_mem_keys rest n hnotin
          rw [(spec n).1 hlrest, hm1 n, if_pos rfl]
      · have hb : (n == a) = false := beq_eq_false_iff_ne.mpr hk
        have hlk : List.lookup n ((a, w0) :: rest) = List.lookup n rest := by
          simp only [List.lookup, hb]
        constructor
        · intro hnone
          rw [hlk] at hnone
          rw [(spec n).1 hnone, hm1 n, if_neg hk]
        · intro w hw
          rw [hlk] at hw
          obtain ⟨ns2, hns2, hmn⟩ := (spec n).2 w hw
          refine ⟨ns2, ?_, hmn⟩
          rw [hm1 n, if_neg hk] at hns2
          exact hns2

/-- Claim C6: for every input to the record assembler
`get_nominator_deposits_and_withdrawal` (with the distinct storage keys of
a chain storage map), assembly aborts (panics, `none`) exactly when some
withdrawal has a nominator with no deposit entry — a withdrawal is never
silently dropped — and on success the result maps every deposited nominator
to its deposit paired with its withdrawal when one exists (`List.lookup`)
and with no withdrawal otherwise, and maps no one else. -/
theorem assembler_aborts_or_pairs_deposits_with_withdrawals
    (deposits : List (AccountId × Deposit))
    (withdrawals : List (AccountId × Withdrawal))
    (hd : (deposits.map Prod.fst).Nodup)
    (hw : (withdrawals.map Prod.fst).Nodup) :
    (get_nominator_deposits_and_withdrawal deposits withdrawals = none ↔
      ∃ e ∈ withdrawals, e.1 ∉ deposits.map Prod.fst) ∧
    (∀ m, get_nominator_deposits_and_withdrawal deposits withdrawals = some m →
      (∀ n, n ∉ deposits.map Prod.fst → m n = none) ∧
      (∀ n d, (n, d) ∈ deposits →
        m n = some ⟨d, List.lookup n withdrawals⟩)) := by
  constructor
  · unfold get_nominator_deposits_and_withdrawal
    rw [withdrawal_fold_none_iff]
    constructor
    · rintro ⟨e, he, hnone⟩
      refine ⟨e, he, ?_⟩
      intro hmem
      obtain ⟨p, hp, hfst⟩ := List.mem_map.mp hmem
      obtain ⟨n2, d⟩ := p
      dsimp only at hfst
      subst hfst
      rw [deposit_fold_mem deposits _ _ d hd hp] at hnone
      exact Option.noConfusion hnone
    · rintro ⟨e, he, hnotin⟩
      exact ⟨e, he, deposit_fold_not_mem deposits _ e.1 hnotin⟩
  · intro m hm
    unfold get_nominator_deposits_and_withdrawal at hm
    have spec := withdrawal_fold_some_spec withdrawals _ m hw hm
    constructor
    · intro n hn
      cases hlk : List.lookup n withdrawals with
      | none =>
        rw [(spec n).1 hlk]
        exact deposit_fold_not_mem deposits _ n hn
      | some w =>
        obtain ⟨ns, hns, _⟩ := (spec n).2 w hlk
        rw [deposit_fold_not_mem deposits _ n hn] at hns
        cases hns
    · intro n d hmem
      have hdep := deposit_fold_mem deposits (fun _ => none) n d hd hmem
      cases hlk : List.lookup n withdrawals with
      | none => rw [(spec n).1 hlk, hdep]
      | some w =>
        obtain ⟨ns, hns, hmn⟩ := (spec n).2 w hlk
        rw [hdep] at hns
        cases hns
        exact hmn

/-- Witness for C6, the abort direction: a withdrawal for nominator 2 with
deposits recorded only for nominator 1 makes assembly panic (`none`). -/
theorem assembler_aborts_or_pairs_witness :
    get_nominator_deposits_and_withdrawal
      [(1, ⟨⟨3, 4⟩, none⟩)] [(2, ⟨9, [], none⟩)] = none :=
  (assembler_aborts_or_pairs_deposits_with_withdrawals
      [(1, ⟨⟨3, 4⟩, none⟩)] [(2, ⟨9, [], none⟩)]
      (by decide) (by decide)).1.mpr
    ⟨(2, ⟨9, [], none⟩), by decide, by decide⟩

end GeminiSlash
